import Mathlib

/-!
Verification development for the skill package import pipeline
(`src/server/services/skill/{parser,importer,resource}.ts`,
`src/server/modules/GitHub/index.ts`).

JavaScript strings are embedded as `List Char` (`Str`); byte buffers as
`List Nat`.  External collaborators (the zip decompressor, the HTTP
fetcher, the object-storage backend, the record store) are either taken
as explicit inputs or modelled as small state types, as noted at each
definition.
-/

set_option maxRecDepth 100000

namespace SkillSpec

abbrev Str := List Char

def toL (s : String) : Str := s.data

/-- First occurrence split: `splitFirst c l = some (pre, post)` when
`l = pre ++ c :: post` and `c ∉ pre`; `none` when `c ∉ l`. -/
def splitFirst (c : Char) : Str → Option (Str × Str)
  | [] => none
  | x :: xs =>
    if x = c then some ([], xs)
    else match splitFirst c xs with
      | some (pre, post) => some (x :: pre, post)
      | none => none

/-- `dropPre p l = some r` iff `l = p ++ r` (strip a literal leading part). -/
def dropPre : Str → Str → Option Str
  | [], l => some l
  | _ :: _, [] => none
  | c :: p, d :: l => if c = d then dropPre p l else none

/-! ## SHA-256

Modelled from the spec: `parseZipPackage` computes the archive hash with
the external `js-sha256` library (not under `src/`); the spec describes it
as "a 256-bit cryptographic hash, hex-encoded, over the full input byte
buffer".  The standard FIPS 180-4 SHA-256 over a byte list follows. -/

def w32 (n : Nat) : Nat := n % 4294967296

def rotr (n x : Nat) : Nat := w32 ((x >>> n) ||| (x <<< (32 - n)))

structure H8 where
  a : Nat
  b : Nat
  c : Nat
  d : Nat
  e : Nat
  f : Nat
  g : Nat
  h : Nat
deriving Repr, DecidableEq

def sha256K : List Nat :=
  [1116352408, 1899447441, 3049323471, 3921009573, 961987163, 1508970993,
   2453635748, 2870763221, 3624381080, 310598401, 607225278, 1426881987,
   1925078388, 2162078206, 2614888103, 3248222580, 3835390401, 4022224774,
   264347078, 604807628, 770255983, 1249150122, 1555081692, 1996064986,
   2554220882, 2821834349, 2952996808, 3210313671, 3336571891, 3584528711,
   113926993, 338241895, 666307205, 773529912, 1294757372, 1396182291,
   1695183700, 1986661051, 2177026350, 2456956037, 2730485921, 2820302411,
   3259730800, 3345764771, 3516065817, 3600352804, 4094571909, 275423344,
   430227734, 506948616, 659060556, 883997877, 958139571, 1322822218,
   1537002063, 1747873779, 1955562222, 2024104815, 2227730452, 2361852424,
   2428436474, 2756734187, 3204031479, 3329325298]

def sha256Init : H8 :=
  ⟨1779033703, 3144134277, 1013904242, 2773480762, 1359893119, 2600822924, 528734635, 1541459225⟩

def padLen (l : Nat) : Nat := (64 - ((l + 9) % 64)) % 64

def lenBytes (l : Nat) : List Nat :=
  let b := 8 * l
  [(b >>> 56) % 256, (b >>> 48) % 256, (b >>> 40) % 256, (b >>> 32) % 256,
   (b >>> 24) % 256, (b >>> 16) % 256, (b >>> 8) % 256, b % 256]

def padMsg (m : List Nat) : List Nat :=
  m ++ 128 :: (List.replicate (padLen m.length) 0 ++ lenBytes m.length)

def toChunks : Nat → List Nat → List (List Nat)
  | 0, _ => []
  | _, [] => []
  | fuel+1, l => l.take 64 :: toChunks fuel (l.drop 64)

def chunkWords (c : List Nat) : List Nat :=
  (List.range 16).map fun i =>
    c.getD (4*i) 0 * 16777216 + c.getD (4*i+1) 0 * 65536 + c.getD (4*i+2) 0 * 256 + c.getD (4*i+3) 0

def nextW (ws : List Nat) : Nat :=
  let n := ws.length
  let w15 := ws.getD (n - 15) 0
  let w2 := ws.getD (n - 2) 0
  let s0 := (rotr 7 w15) ^^^ (rotr 18 w15) ^^^ (w15 >>> 3)
  let s1 := (rotr 17 w2) ^^^ (rotr 19 w2) ^^^ (w2 >>> 10)
  w32 (ws.getD (n - 16) 0 + s0 + ws.getD (n - 7) 0 + s1)

def extendW : Nat → List Nat → List Nat
  | 0, ws => ws
  | f+1, ws => extendW f (ws ++ [nextW ws])

def roundStep (kw : Nat × Nat) (s : H8) : H8 :=
  let bigS1 := (rotr 6 s.e) ^^^ (rotr 11 s.e) ^^^ (rotr 25 s.e)
  let ch := (s.e &&& s.f) ^^^ ((s.e ^^^ 4294967295) &&& s.g)
  let t1 := w32 (s.h + bigS1 + ch + kw.1 + kw.2)
  let bigS0 := (rotr 2 s.a) ^^^ (rotr 13 s.a) ^^^ (rotr 22 s.a)
  let maj := (s.a &&& s.b) ^^^ (s.a &&& s.c) ^^^ (s.b &&& s.c)
  let t2 := w32 (bigS0 + maj)
  ⟨w32 (t1 + t2), s.a, s.b, s.c, w32 (s.d + t1), s.e, s.f, s.g⟩

def compress : List (Nat × Nat) → H8 → H8
  | [], s => s
  | kw :: rest, s => compress rest (roundStep kw s)

def processChunk (h : H8) (c : List Nat) : H8 :=
  let ws := extendW 48 (chunkWords c)
  let s := compress (sha256K.zip ws) h
  ⟨w32 (h.a + s.a), w32 (h.b + s.b), w32 (h.c + s.c), w32 (h.d + s.d),
   w32 (h.e + s.e), w32 (h.f + s.f), w32 (h.g + s.g), w32 (h.h + s.h)⟩

def hexChar (n : Nat) : Char := (toL "0123456789abcdef").getD n '0'

def wordHex (x : Nat) : Str := (List.range 8).map fun i => hexChar ((x >>> (28 - 4*i)) % 16)

/-- `sha256Hex bytes` is the lowercase-hex SHA-256 digest of `bytes`. -/
def sha256Hex (m : List Nat) : Str :=
  let p := padMsg m
  let hs := (toChunks p.length p).foldl processChunk sha256Init
  wordHex hs.a ++ wordHex hs.b ++ wordHex hs.c ++ wordHex hs.d ++
  wordHex hs.e ++ wordHex hs.f ++ wordHex hs.g ++ wordHex hs.h

/-! ## JSON values and the manifest schema

`skillManifestSchema` (packages/types, bundled with `resource.test.ts` in
this snapshot) is a zod object schema with `.passthrough()`.  Loosely
typed JavaScript data is embedded as `Json`. -/

inductive Json where
  | null
  | bool (b : Bool)
  | num (n : Int)
  | str (s : Str)
  | arr (xs : List Json)
  | obj (fields : List (Str × Json))

def getField? (fields : List (Str × Json)) (k : Str) : Option Json :=
  (fields.find? (fun p => p.1 == k)).map (·.2)

/-- Modelled from the spec: zod's `z.string().url()` well-formed-absolute-URL
check (external library, not under `src/`): a non-empty alphabetic scheme,
then `://`, then a non-empty remainder. -/
def urlOk (s : Str) : Bool :=
  match splitFirst ':' s with
  | some (scheme, rest) =>
      decide (scheme ≠ []) && scheme.all Char.isAlpha &&
      (toL "//").isPrefixOf rest && decide (rest.drop 2 ≠ [])
  | none => false

/-- Issues for one string-typed field.  `requiredMsg = some msg` embeds
`z.string().min(1, msg)` (required); `none` embeds an optional
`z.string()`, with `checkUrl` adding `.url()`.  zod's default issue texts
("Required" for a missing required field, a type mismatch, an invalid
URL) are abbreviated to fixed strings. -/
def strIssues (fields : List (Str × Json)) (k : Str) (requiredMsg : Option Str)
    (checkUrl : Bool) : List Str :=
  match getField? fields k with
  | none => match requiredMsg with | some _ => [toL "Required"] | none => []
  | some (Json.str s) =>
      match requiredMsg with
      | some msg => if s = [] then [msg] else []
      | none => if checkUrl && !(urlOk s) then [toL "Invalid url"] else []
  | some _ => [toL "Invalid type"]

/-- `skillAuthorSchema`: `name : z.string()` (required, no minimum),
`url : z.string().url().optional()`. -/
def authorIssues (fields : List (Str × Json)) : List Str :=
  match getField? fields (toL "author") with
  | none => []
  | some (Json.obj af) =>
      (match getField? af (toL "name") with
       | none => [toL "Required"]
       | some (Json.str _) => []
       | some _ => [toL "Invalid type"]) ++
      (match getField? af (toL "url") with
       | none => []
       | some (Json.str s) => if urlOk s then [] else [toL "Invalid url"]
       | some _ => [toL "Invalid type"])
  | some _ => [toL "Invalid type"]

/-- `permissions : z.array(z.string()).optional()`. -/
def permissionsIssues (fields : List (Str × Json)) : List Str :=
  match getField? fields (toL "permissions") with
  | none => []
  | some (Json.arr xs) =>
      if xs.all (fun x => match x with | Json.str _ => true | _ => false) then []
      else [toL "Invalid type"]
  | some _ => [toL "Invalid type"]

/-- All issues of `skillManifestSchema.safeParse`, in the schema's field
order (`author`, `description`, `gitUrl`, `license`, `name`,
`permissions`, `repository`, `version`); unknown fields pass through and
contribute no issue. -/
def manifestIssues (j : Json) : List Str :=
  match j with
  | Json.obj fields =>
      authorIssues fields ++
      strIssues fields (toL "description") (some (toL "Skill description is required")) false ++
      strIssues fields (toL "gitUrl") none true ++
      strIssues fields (toL "license") none false ++
      strIssues fields (toL "name") (some (toL "Skill name is required")) false ++
      permissionsIssues fields ++
      strIssues fields (toL "repository") none true ++
      strIssues fields (toL "version") none false
  | _ => [toL "Expected object"]

/-- `SkillParser.validateManifest`: `safeParse` then either the (unchanged,
passthrough) data or a `SkillManifestError` joining every issue message
with `', '` after `'Invalid skill manifest: '`. -/
def validateManifest (data : Json) : Except Str Json :=
  let issues := manifestIssues data
  if issues = [] then .ok data
  else .error (toL "Invalid skill manifest: " ++ (toL ", ").intercalate issues)

/-! ## Document parsing (`SkillParser.parseSkillMd`) -/

/-- JavaScript `String.prototype.split(sep)` for a single-character
separator (`"".split` gives `[""]`). -/
def splitOnChar (c : Char) : Str → List Str
  | [] => [[]]
  | x :: xs =>
    let r := splitOnChar c xs
    if x = c then [] :: r
    else match r with
      | h :: t => (x :: h) :: t
      | [] => [[x]]

def joinLines (ls : List Str) : Str := (toL "\n").intercalate ls

def trimStr (s : Str) : Str :=
  ((s.dropWhile Char.isWhitespace).reverse.dropWhile Char.isWhitespace).reverse

def parseKVs (ls : List Str) : List (Str × Json) :=
  ls.foldr
    (fun l acc =>
      match splitFirst ':' l with
      | some (k, v) => (trimStr k, Json.str (trimStr v)) :: acc
      | none => acc)
    []

/-- Modelled from the spec: the external gray-matter library "splits a
leading frontmatter block delimited by lines containing only `---` from
the body"; the block's simple `key: value` lines become the data object. -/
def matterSplit (text : Str) : Json × Str :=
  match splitOnChar '\n' text with
  | [] => (Json.obj [], text)
  | first :: rest =>
    if first = toL "---" then
      match rest.findIdx? (fun l => l == toL "---") with
      | some j => (Json.obj (parseKVs (rest.take j)), joinLines (rest.drop (j+1)))
      | none => (Json.obj [], text)
    else (Json.obj [], text)

inductive ImportCode where
  | CONFLICT
  | INVALID_URL
  | NOT_FOUND
  | DOWNLOAD_FAILED
  | FILE_NOT_FOUND
deriving Repr, DecidableEq

/-- The error taxonomy of `services/skill/errors.ts`: `SkillParseError`,
`SkillManifestError`, `SkillResourceError`, `SkillImportError` (the last
carrying its discriminant code). -/
inductive SkillErr where
  | parseErr (msg : Str)
  | manifestErr (msg : Str)
  | resourceErr (msg : Str)
  | importErr (code : ImportCode) (msg : Str)
deriving Repr, DecidableEq

def SkillErr.isImportErr : SkillErr → Bool
  | .importErr _ _ => true
  | _ => false

structure ParsedSkill where
  content : Str
  manifest : Json
  raw : Str

/-- `SkillParser.parseSkillMd`: gray-matter split, manifest validation
(`SkillManifestError` propagates unwrapped), trimmed body. -/
def parseSkillMd (fileContent : Str) : Except SkillErr ParsedSkill :=
  let (data, content) := matterSplit fileContent
  match validateManifest data with
  | .error m => .error (.manifestErr m)
  | .ok manifest => .ok ⟨trimStr content, manifest, fileContent⟩

/-! ## Locating SKILL.md in an unzipped archive

The decompressed archive (`fflate` is external) is taken as an
association list `entry path → decoded content`, in the entry order of
`Object.keys`; lookups return the first binding. -/

def lookupEntry (unzipped : List (Str × Str)) (k : Str) : Option Str :=
  (unzipped.find? (fun p => p.1 == k)).map (·.2)

/-- `SkillParser.findGitHubRootPrefix`: the first entry path whose first
`/` is at an index `> 0`, cut just after that `/`. -/
def findGitHubRootPfx : List Str → Option Str
  | [] => none
  | p :: rest =>
    match splitFirst '/' p with
    | some (pre, _) => if pre = [] then findGitHubRootPfx rest else some (pre ++ ['/'])
    | none => findGitHubRootPfx rest

/-- `basePath.replaceAll(/^\/|\/$/g, '')`: one leading and one trailing
slash removed (the two matches never overlap). -/
def stripSlashes (s : Str) : Str :=
  let s1 := match s with | '/' :: t => t | _ => s
  match s1.reverse with
  | '/' :: t => t.reverse
  | _ => s1

/-- JavaScript regex `.`: any character except a line terminator. -/
def isLineTerm (c : Char) : Bool :=
  c = '\n' || c = '\r' || c = (Char.ofNat 0x2028) || c = (Char.ofNat 0x2029)

/-- Character-wise match of the subdirectory hint spliced (unescaped) into
`new RegExp`.  In a directory-name hint the only regex metacharacter that
realistically occurs is `.`, which matches any non-line-terminator
character; every other character is matched literally. -/
def dotMatch : Str → Str → Bool
  | [], [] => true
  | pc :: pr, c :: cr => (if pc = '.' then !(isLineTerm c) else pc = c) && dotMatch pr cr
  | _, _ => false

/-- The fallback pattern `^[^/]+/<hint>/SKILL\.md$` of `findSkillMd`:
one non-empty leading segment, then the (regex-interpreted) hint, then
`/SKILL.md`. -/
def basePatMatch (norm : Str) (path : Str) : Bool :=
  match splitFirst '/' path with
  | some (seg, rest) =>
      decide (seg ≠ []) &&
      (if (toL "/SKILL.md").isSuffixOf rest then
        dotMatch norm (rest.take (rest.length - 9))
      else false)
  | none => false

/-- The pattern `^[^/]+/SKILL\.md$` (first-level subdirectory). -/
def firstLevelMatch (path : Str) : Bool :=
  match splitFirst '/' path with
  | some (seg, rest) => decide (seg ≠ []) && rest == toL "SKILL.md"
  | none => false

/-- The `if (basePath)` block of `findSkillMd`: (a) the inferred-root-prefix
target `<rootPfx><hint>/SKILL.md`, else (b) the first entry matching the
fallback pattern. -/
def hintStep (unzipped : List (Str × Str)) (basePath : Option Str) :
    Option (Str × Str) :=
  match basePath with
  | some bp =>
    if bp = [] then none
    else
      let allPaths := unzipped.map (·.1)
      let norm := stripSlashes bp
      let fromRoot :=
        match findGitHubRootPfx allPaths with
        | some rp =>
          let target := rp ++ norm ++ toL "/SKILL.md"
          (lookupEntry unzipped target).map (fun c => (target, c))
        | none => none
      match fromRoot with
      | some r => some r
      | none =>
        (allPaths.find? (basePatMatch norm)).bind
          (fun p => (lookupEntry unzipped p).map (fun c => (p, c)))
  | none => none

/-- `SkillParser.findSkillMd`: locate the manifest entry.  Priority:
(a) with a (truthy) base-path hint, `<rootPfx><hint>/SKILL.md`;
(b) first entry matching the hint fallback pattern;
(c) root `SKILL.md`;
(d) first entry matching `*/SKILL.md`.
Returns the located `(path, content)`. -/
def findSkillMd (unzipped : List (Str × Str)) (basePath : Option Str) :
    Option (Str × Str) :=
  match hintStep unzipped basePath with
  | some r => some r
  | none =>
    match lookupEntry unzipped (toL "SKILL.md") with
    | some c => some (toL "SKILL.md", c)
    | none =>
      ((unzipped.map (·.1)).find? firstLevelMatch).bind
        (fun p => (lookupEntry unzipped p).map (fun c => (p, c)))

/-- The directory part of the manifest path: `skillMdPath.slice(0,
lastIndexOf('/') + 1)` when it contains `/`, else empty. -/
def dirOf (p : Str) : Str :=
  match splitFirst '/' p.reverse with
  | some (_, revPre) => revPre.reverse ++ ['/']
  | none => []

/-- JavaScript `String.prototype.includes`: substring anywhere. -/
def infixOf (needle : Str) : Str → Bool
  | [] => needle.isPrefixOf []
  | c :: t => needle.isPrefixOf (c :: t) || infixOf needle t

/-- `SkillParser.extractResources`: keep every entry except directory
markers, entries whose full path starts with `.` or contains `__MACOSX`
or equals the manifest path, and (when the manifest sits in a
subdirectory) entries outside that directory; keys are relative to the
manifest's directory. -/
def extractResources (unzipped : List (Str × Str)) (skillMdPath : Str) :
    List (Str × Str) :=
  let basePath := dirOf skillMdPath
  unzipped.foldr
    (fun (e : Str × Str) acc =>
      let path := e.1
      if (['/'] : Str).isSuffixOf path || (['.'] : Str).isPrefixOf path ||
          infixOf (toL "__MACOSX") path || path == skillMdPath then acc
      else if basePath ≠ [] && !(basePath.isPrefixOf path) then acc
      else
        let relativePath := if basePath = [] then path else path.drop basePath.length
        if relativePath = [] then acc
        else (relativePath, e.2) :: acc)
    []

structure ParsedZipSkill where
  content : Str
  manifest : Json
  resources : List (Str × Str)
  zipHash : Str

/-- `SkillParser.parseZipPackage`.  The decompression step is external
(`fflate`), so the already-unzipped entry mapping accompanies the raw
byte buffer; a decompression failure never reaches this code path. -/
def parseZipPackage (buffer : List Nat) (unzipped : List (Str × Str))
    (basePath : Option Str) : Except SkillErr ParsedZipSkill :=
  match findSkillMd unzipped basePath with
  | none => .error (.parseErr (toL "SKILL.md not found in zip package"))
  | some (skillMdPath, skillMdContent) =>
    match parseSkillMd skillMdContent with
    | .error e => .error e
    | .ok parsed =>
      let resources := extractResources unzipped skillMdPath
      let zipHash := sha256Hex buffer
      .ok ⟨parsed.content, parsed.manifest, resources, zipHash⟩

/-! ## Repository URL parsing (`GitHub.parseRepoUrl`)

`url.match(re)` with an unanchored start scans left to right for the
first position where the pattern (which is anchored at the end by `$`)
matches; `coreParse` is the pattern at one start position, `scanCore`
the scan. -/

structure RepoInfo where
  branch : Str
  owner : Str
  path : Option Str := none
  repo : Str
deriving Repr, DecidableEq

structure CoreMatch where
  owner : Str
  repo : Str
  branch : Option Str
  path : Option Str
deriving Repr, DecidableEq

/-- The character class `[\w.-]`. -/
def isWordChar (c : Char) : Bool := c.isAlphanum || c = '_' || c = '.' || c = '-'

/-- The lazy capture `([^/]+?)(?:\.git)?`: one trailing `.git` is left out
of the capture when at least one character precedes it. -/
def stripGitCaptured (s : Str) : Str :=
  if (toL ".git").isSuffixOf s && decide (4 < s.length) then s.take (s.length - 4) else s

/-- `repo.replace(/\.git$/, '')` applied to the captured group. -/
def stripGitReplace (s : Str) : Str :=
  if (toL ".git").isSuffixOf s then s.take (s.length - 4) else s

/-- The part of the pattern after `github.com/`:
`([^/]+)\/([^/]+?)(?:\.git)?(?:\/tree\/([^/]+)(?:\/(.+))?)?$`. -/
def coreParseGh (r : Str) : Option CoreMatch :=
  match splitFirst '/' r with
  | none => none
  | some (owner, r2) =>
    if owner = [] then none
    else
      match splitFirst '/' r2 with
      | none =>
        if r2 = [] then none
        else some ⟨owner, stripGitReplace (stripGitCaptured r2), none, none⟩
      | some (seg0, rest) =>
        if seg0 = [] then none
        else
          match dropPre (toL "tree/") rest with
          | none => none
          | some b =>
            match splitFirst '/' b with
            | none =>
              if b = [] then none
              else some ⟨owner, stripGitReplace (stripGitCaptured seg0), some b, none⟩
            | some (br, p) =>
              if br = [] then none
              else if p = [] then none
              else if p.any isLineTerm then none
              else some ⟨owner, stripGitReplace (stripGitCaptured seg0), some br, some p⟩

/-- One attempt of
`(?:https?:\/\/)?github\.com\/([^/]+)\/([^/]+?)(?:\.git)?(?:\/tree\/([^/]+)(?:\/(.+))?)?$`
anchored at the given start position. -/
def coreParse (l : Str) : Option CoreMatch :=
  let s1 :=
    match dropPre (toL "https://") l with
    | some r => r
    | none => match dropPre (toL "http://") l with | some r => r | none => l
  match dropPre (toL "github.com/") s1 with
  | none => none
  | some r => coreParseGh r

def scanCore : Str → Option CoreMatch
  | [] => coreParse []
  | c :: t =>
    match coreParse (c :: t) with
    | some m => some m
    | none => scanCore t

/-- The anchored shorthand `^[\w.-]+\/[\w.-]+$` (`owner/repo`). -/
def shorthandSplit (url : Str) : Option (Str × Str) :=
  match splitFirst '/' url with
  | some (a, b) =>
    if decide (a ≠ []) && decide (b ≠ []) && a.all isWordChar && b.all isWordChar then
      some (a, b)
    else none
  | none => none

/-- `GitHub.parseRepoUrl(url, defaultBranch = 'main')`. -/
def parseRepoUrl (url : Str) (defaultBranch : Str := toL "main") : Except Str RepoInfo :=
  match shorthandSplit url with
  | some (owner, repo) => .ok ⟨defaultBranch, owner, none, repo⟩
  | none =>
    match scanCore url with
    | some m => .ok ⟨m.branch.getD defaultBranch, m.owner, m.path, m.repo⟩
    | none => .error (toL "Invalid GitHub URL format: " ++ url)

/-! ## Resource storage (`SkillResourceService.storeResources`)

The object-storage backend and file-record registry are external; an
environment says, per virtual path, whether its upload or its
file-record creation fails, and which file id the registry returns.
`storeResources` returns the keys actually uploaded (side effects that
are never rolled back) alongside the thrown-or-returned outcome. -/

structure ResourceEnv where
  failUpload : Str → Bool
  failRecord : Str → Bool
  fileIdOf : Str → Str

def resourceKey (zipHash path : Str) : Str :=
  toL "skills/source_files/" ++ zipHash ++ toL "/" ++ path

/-- `SkillResourceService.storeResource`: build the key, upload, create
the file record, return the record id. -/
def storeResource (env : ResourceEnv) (zipHash path : Str) :
    List Str × Except SkillErr Str :=
  let key := resourceKey zipHash path
  if env.failUpload path then ([], .error (.resourceErr (toL "upload failed")))
  else if env.failRecord path then ([key], .error (.resourceErr (toL "file record failed")))
  else ([key], .ok (env.fileIdOf path))

/-- `SkillResourceService.storeResources`: strictly sequential loop; the
first failure aborts the remainder (already-uploaded keys stay). -/
def storeResources (env : ResourceEnv) (zipHash : Str) :
    List (Str × Str) → List Str × Except SkillErr (List (Str × Str))
  | [] => ([], .ok [])
  | e :: rest =>
    let sr := storeResource env zipHash e.1
    match sr.2 with
    | .error er => (sr.1, .error er)
    | .ok fid =>
      let tail := storeResources env zipHash rest
      (sr.1 ++ tail.1,
        match tail.2 with
        | .error er => .error er
        | .ok m => .ok ((e.1, fid) :: m))

/-! ## Directory trees (`SkillResourceService.buildTree`)

The imperative algorithm keeps a `nodeMap` keyed by full path and pushes
each newly created node into the current level's array.  The state is
embedded as the flat creation trace: each created node records the level
(`none` = root, `some q` = children of the node at path `q`) it was
pushed into; `renderNodes` reassembles the nested tree from the trace. -/

structure TEntry where
  level : Option Str
  name : Str
  path : Str
  isFile : Bool
deriving Repr, DecidableEq

/-- One path's insertion walk (`for (let i = 0; i < parts.length; i++)`). -/
def insertWalk (st : List TEntry) (level : Option Str) (acc : Str) :
    List Str → List TEntry
  | [] => st
  | part :: rest =>
    let isFile := rest = []
    let curr := if acc = [] then part else acc ++ '/' :: part
    match st.find? (fun e => e.path == curr) with
    | some node =>
      let level' := if !isFile && !node.isFile then some curr else level
      insertWalk st level' curr rest
    | none =>
      let st' := st ++ [⟨level, part, curr, isFile⟩]
      let level' := if isFile then level else some curr
      insertWalk st' level' curr rest

inductive RNode where
  | mk (name : Str) (path : Str) (isFile : Bool) (children : Option (List RNode))

def renderNodes : List TEntry → List (Option Str × RNode)
  | [] => []
  | e :: rest =>
    let tail := renderNodes rest
    (e.level,
      .mk e.name e.path e.isFile
        (if e.isFile then none
         else some ((tail.filter (fun q => q.1 == some e.path)).map (·.2)))) :: tail

/-- `SkillResourceService.buildTree`: sort the paths, insert each in
order, read the roots back off the creation trace. -/
def buildTree (paths : List Str) : List RNode :=
  let sorted := List.insertionSort (· ≤ ·) paths
  let st := sorted.foldl (fun st p => insertWalk st none [] (splitOnChar '/' p)) []
  ((renderNodes st).filter (fun q => q.1 == (none : Option Str))).map (·.2)

/-! ## The import orchestrator (`SkillImporter`)

The user-scoped record store is a list of records; `create` assigns the
next fresh id.  `Date.now()`-based generated identifiers and all other
externals (file download, HTTP fetch, zip upload) are explicit inputs. -/

structure SkillRecord where
  id : Nat
  identifier : Str
  name : Option Json
  description : Option Json
  content : Str
  manifest : Json
  resources : List (Str × Str)
  source : Str
  zipFileHash : Option Str

abbrev Store := List SkillRecord

def findByIdentifier (st : Store) (ident : Str) : Option SkillRecord :=
  st.find? (fun r => r.identifier == ident)

def jsonField (j : Json) (k : Str) : Option Json :=
  match j with
  | Json.obj fs => getField? fs k
  | _ => none

def setFields (k : Str) (v : Json) : List (Str × Json) → List (Str × Json)
  | [] => [(k, v)]
  | (k', v') :: rest => if k' == k then (k, v) :: rest else (k', v') :: setFields k v rest

/-- JavaScript object spread override `{...j, k: v}` for one key: an
existing key keeps its position, a new key is appended. -/
def setField (j : Json) (k : Str) (v : Json) : Json :=
  match j with
  | Json.obj fs => Json.obj (setFields k v fs)
  | other => other

structure CreateSkillInput where
  content : Str
  description : Option Str
  identifier : Option Str
  name : Str

/-- `SkillImporter.createUserSkill` (`importer.ts`, the logging variant):
`input.identifier || generated`, CONFLICT on an existing identifier, else
persist with the manifest built directly as
`{ description: input.description || '', name: input.name }`. -/
def createUserSkill (st : Store) (input : CreateSkillInput) (generatedId : Str) :
    Except SkillErr (Store × SkillRecord) :=
  let identifier :=
    match input.identifier with
    | some i => if i = [] then generatedId else i
    | none => generatedId
  match findByIdentifier st identifier with
  | some _ =>
    .error (.importErr .CONFLICT
      (toL "Skill with identifier \"" ++ identifier ++ toL "\" already exists"))
  | none =>
    let manifest :=
      Json.obj [(toL "description", Json.str (input.description.getD [])),
                (toL "name", Json.str input.name)]
    let created : SkillRecord :=
      { id := st.length, identifier, name := some (Json.str input.name),
        description := input.description.map Json.str, content := input.content,
        manifest, resources := [], source := toL "user", zipFileHash := none }
    .ok (st ++ [created], created)

structure GitHubParsed where
  content : Str
  manifest : Json
  resourceIds : List (Str × Str)
  zipHash : Option Str

/-- Step 5 of `importFromGitHub`:
`github.<owner>.<repo>` plus, for a (truthy) subdirectory, `.` and the
subdirectory with every `/` replaced by `.`. -/
def ghIdentifier (info : RepoInfo) : Str :=
  let pathSuffix :=
    match info.path with
    | some q => if q = [] then [] else '.' :: q.map (fun c => if c = '/' then '.' else c)
    | none => []
  toL "github." ++ info.owner ++ toL "." ++ info.repo ++ pathSuffix

/-- Step 6 of `importFromGitHub`: `{...manifest, gitUrl, repository}`. -/
def ghFullManifest (m : Json) (gitUrl : Str) (info : RepoInfo) : Json :=
  setField (setField m (toL "gitUrl") (Json.str gitUrl)) (toL "repository")
    (Json.str (toL "https://github.com/" ++ info.owner ++ toL "/" ++ info.repo))

/-- Steps 5–9 of `SkillImporter.importFromGitHub`: identifier with the
subdirectory suffix, provenance-merged manifest, then update-in-place or
create tagged `market`. -/
def importGitHubPersist (st : Store) (info : RepoInfo) (gitUrl : Str)
    (p : GitHubParsed) : Store × SkillRecord :=
  let identifier := ghIdentifier info
  let fullManifest := ghFullManifest p.manifest gitUrl info
  match findByIdentifier st identifier with
  | some existing =>
    let updated : SkillRecord :=
      { existing with
        content := p.content,
        description := jsonField p.manifest (toL "description"),
        manifest := fullManifest,
        name := jsonField p.manifest (toL "name"),
        resources := p.resourceIds,
        zipFileHash := p.zipHash }
    (st.map (fun r => if r.id = existing.id then updated else r), updated)
  | none =>
    let created : SkillRecord :=
      { id := st.length, identifier,
        name := jsonField p.manifest (toL "name"),
        description := jsonField p.manifest (toL "description"),
        content := p.content, manifest := fullManifest,
        resources := p.resourceIds, source := toL "market",
        zipFileHash := p.zipHash }
    (st ++ [created], created)

/-- GitHub download outcomes: `downloadRepoZip` throws
`GitHubNotFoundError` on a 404 and anything else on other failures. -/
inductive DlErr where
  | notFound (msg : Str)
  | other (msg : Str)

structure ImportGitHubInput where
  gitUrl : Str
  branch : Option Str

/-- `SkillImporter.importFromGitHub`: URL-parse failures become
`INVALID_URL`, download failures `NOT_FOUND`/`DOWNLOAD_FAILED`; the zip
parse (step 3), resource storage (step 4) and zip upload (step 7) are
*not* wrapped — their errors flow through unchanged.  `download` yields
the fetched raw bytes together with their (externally) unzipped entry
mapping; `uploadZip` is the step-7 infra outcome. -/
def importFromGitHub (st : Store) (input : ImportGitHubInput)
    (download : RepoInfo → Except DlErr (List Nat × List (Str × Str)))
    (env : ResourceEnv) (uploadZip : Except SkillErr Unit) :
    Except SkillErr (Store × SkillRecord) :=
  match parseRepoUrl input.gitUrl (input.branch.getD (toL "main")) with
  | .error msg => .error (.importErr .INVALID_URL msg)
  | .ok info =>
    match download info with
    | .error (.notFound msg) => .error (.importErr .NOT_FOUND msg)
    | .error (.other msg) =>
      .error (.importErr .DOWNLOAD_FAILED (toL "Failed to download GitHub repository: " ++ msg))
    | .ok (buffer, entries) =>
      match parseZipPackage buffer entries info.path with
      | .error e => .error e
      | .ok parsed =>
        match (storeResources env parsed.zipHash parsed.resources).2 with
        | .error e => .error e
        | .ok resourceIds =>
          match uploadZip with
          | .error e => .error e
          | .ok _ =>
            .ok (importGitHubPersist st info input.gitUrl
              ⟨parsed.content, parsed.manifest, resourceIds, some parsed.zipHash⟩)

/-- `SkillImporter.importFromZip`: no error is translated anywhere on
this path; `zipFile` is the outcome of `downloadFileToLocal` + `readFile`
(bytes and their unzipped entries). -/
def importFromZip (st : Store) (zipFile : Except SkillErr (List Nat × List (Str × Str)))
    (env : ResourceEnv) (generatedId : Str) :
    Except SkillErr (Store × SkillRecord) :=
  match zipFile with
  | .error e => .error e
  | .ok (buffer, entries) =>
    match parseZipPackage buffer entries none with
    | .error e => .error e
    | .ok parsed =>
      match (storeResources env parsed.zipHash parsed.resources).2 with
      | .error e => .error e
      | .ok resourceIds =>
        let created : SkillRecord :=
          { id := st.length, identifier := generatedId,
            name := jsonField parsed.manifest (toL "name"),
            description := jsonField parsed.manifest (toL "description"),
            content := parsed.content, manifest := parsed.manifest,
            resources := resourceIds, source := toL "user",
            zipFileHash := some parsed.zipHash }
        .ok (st ++ [created], created)

/-! ## Spec-side predicates

These follow the wording of the specification (not the code); the
refutation theorems compare them with the source-derived definitions
above. -/

def isHexChar (c : Char) : Bool := (toL "0123456789abcdef").contains c

/-- The hypothesis of the path-independent manifest-validation claim as
stated: `name` and `description` are non-empty strings, and `author.url`,
`repository`, `gitUrl` are well-formed absolute URLs when present. -/
def specValidateHyp (j : Json) : Bool :=
  match j with
  | Json.obj fields =>
    (match getField? fields (toL "name") with
     | some (Json.str s) => decide (s ≠ []) | _ => false) &&
    (match getField? fields (toL "description") with
     | some (Json.str s) => decide (s ≠ []) | _ => false) &&
    (match getField? fields (toL "author") with
     | some (Json.obj af) =>
        (match getField? af (toL "url") with
         | none => true | some (Json.str s) => urlOk s | some _ => false)
     | _ => true) &&
    (match getField? fields (toL "repository") with
     | none => true | some (Json.str s) => urlOk s | some _ => false) &&
    (match getField? fields (toL "gitUrl") with
     | none => true | some (Json.str s) => urlOk s | some _ => false)
  | _ => false

/-- `bare owner/repo` (both segments non-empty, a single `/`). -/
def specBareForm (url : Str) : Bool :=
  match splitFirst '/' url with
  | some (a, b) => decide (a ≠ []) && decide (b ≠ []) && b.all (fun c => !(c = '/'))
  | none => false

/-- `github.com/owner/repo`, optionally `/tree/<branch>` and
`/tree/<branch>/<subdirectory...>`, optionally with `.git` after the
repo segment (anchored at the start, as the claim reads). -/
def specGhForm (s : Str) : Bool :=
  match dropPre (toL "github.com/") s with
  | none => false
  | some r =>
    match splitFirst '/' r with
    | none => false
    | some (owner, r2) =>
      decide (owner ≠ []) &&
      (match splitFirst '/' r2 with
       | none => decide (r2 ≠ [])
       | some (repo, rest) =>
         decide (repo ≠ []) &&
         (match dropPre (toL "tree/") rest with
          | none => false
          | some b =>
            match splitFirst '/' b with
            | none => decide (b ≠ [])
            | some (br, p) => decide (br ≠ []) && decide (p ≠ [])))

/-- The five accepted URL forms exactly as the claim lists them. -/
def specFiveForm (url : Str) : Bool :=
  specBareForm url || specGhForm url ||
    (match dropPre (toL "https://") url with
     | some r => specGhForm r
     | none => false)

/-- The amended hypothesis for the manifest-validation claim: every
schema-recognised field, when present, has its schema-declared shape
(the original claim constrained only `name`, `description` and the three
URL fields). -/
def wellTypedManifest (j : Json) : Bool :=
  match j with
  | Json.obj fields =>
    (match getField? fields (toL "name") with
     | some (Json.str s) => decide (s ≠ []) | _ => false) &&
    (match getField? fields (toL "description") with
     | some (Json.str s) => decide (s ≠ []) | _ => false) &&
    (match getField? fields (toL "author") with
     | none => true
     | some (Json.obj af) =>
        (match getField? af (toL "name") with
         | some (Json.str _) => true | _ => false) &&
        (match getField? af (toL "url") with
         | none => true | some (Json.str s) => urlOk s | some _ => false)
     | some _ => false) &&
    (match getField? fields (toL "gitUrl") with
     | none => true | some (Json.str s) => urlOk s | some _ => false) &&
    (match getField? fields (toL "repository") with
     | none => true | some (Json.str s) => urlOk s | some _ => false) &&
    (match getField? fields (toL "license") with
     | none => true | some (Json.str _) => true | some _ => false) &&
    (match getField? fields (toL "version") with
     | none => true | some (Json.str _) => true | some _ => false) &&
    (match getField? fields (toL "permissions") with
     | none => true
     | some (Json.arr xs) =>
        xs.all (fun x => match x with | Json.str _ => true | _ => false)
     | some _ => false)
  | _ => false

/-! ## Concrete fixtures used by witnesses and refutations -/

/-- A minimal valid SKILL.md document. -/
def sampleDoc : Str := toL "---\nname: test\ndescription: d\n---\nBody"

/-- A storage environment where nothing fails. -/
def envAllOk : ResourceEnv := ⟨fun _ => false, fun _ => false, fun p => 'i' :: p⟩

/-- A storage environment whose upload fails for the path `b`. -/
def envFailB : ResourceEnv := ⟨fun p => p == toL "b", fun _ => false, fun p => 'i' :: p⟩

/-- A download stub returning an archive without any SKILL.md. -/
def dlNoSkill : RepoInfo → Except DlErr (List Nat × List (Str × Str)) :=
  fun _ => .ok ([1], [(toL "readme", toL "x")])

/-- A download stub failing with a 404. -/
def dl404 : RepoInfo → Except DlErr (List Nat × List (Str × Str)) :=
  fun _ => .error (.notFound (toL "Repository not found: acme/tools@main"))

/-- A data object satisfying the original claim's hypotheses (non-empty
name and description, well-formed `author.url`) that the schema
nevertheless rejects: `author.name` is required by `skillAuthorSchema`
but absent. -/
def authorNoNameJson : Json :=
  Json.obj [(toL "name", Json.str (toL "a")),
            (toL "description", Json.str (toL "b")),
            (toL "author", Json.obj [(toL "url", Json.str (toL "https://example.com"))])]

/-- A fully well-typed manifest carrying an unknown extra field. -/
def goodManifestJson : Json :=
  Json.obj [(toL "name", Json.str (toL "code-review")),
            (toL "description", Json.str (toL "Reviews code")),
            (toL "customField", Json.num 3),
            (toL "author", Json.obj [(toL "name", Json.str (toL "Jo")),
                                     (toL "url", Json.str (toL "https://example.com"))]),
            (toL "permissions", Json.arr [Json.str (toL "net")]),
            (toL "repository", Json.str (toL "https://github.com/acme/skills"))]

/-! ## Sanity checks against the FIPS 180-4 / js-sha256 test vectors -/

example : sha256Hex [] = toL "e3b0c44298fc1c149afbf4c8996fb92427ae41e4649b934ca495991b7852b855" := by
  decide

example :
    sha256Hex ((toL "abc").map Char.toNat) =
      toL "ba7816bf8f01cfea414140de5dae2223b00361a396177a9cb410ff61f20015ad" := by
  decide

/-! ## Supporting lemmas -/

theorem sha256Hex_length (m : List Nat) : (sha256Hex m).length = 64 := by
  simp [sha256Hex, wordHex]

theorem isHexChar_hexChar (n : Nat) : isHexChar (hexChar n) = true := by
  unfold hexChar isHexChar
  by_cases h : n < (toL "0123456789abcdef").length
  · rw [List.getD_eq_getElem _ _ h]
    exact List.elem_iff.mpr (List.getElem_mem h)
  · rw [List.getD_eq_default _ _ (Nat.le_of_not_lt h)]
    decide

theorem wordHex_all_hex (x : Nat) : (wordHex x).all isHexChar = true := by
  rw [List.all_eq_true]
  intro c hc
  rw [wordHex, List.mem_map] at hc
  obtain ⟨i, _, rfl⟩ := hc
  exact isHexChar_hexChar _

theorem sha256Hex_all_hex (m : List Nat) : (sha256Hex m).all isHexChar = true := by
  rw [List.all_eq_true]
  intro c hc
  rw [sha256Hex] at hc
  simp only [List.mem_append] at hc
  have : ∀ x, c ∈ wordHex x → isHexChar c = true := by
    intro x hx
    have := wordHex_all_hex x
    rw [List.all_eq_true] at this
    exact this c hx
  rcases hc with ((((((h | h) | h) | h) | h) | h) | h) | h <;> exact this _ h

theorem parseZipPackage_ok_zipHash {b : List Nat} {e : List (Str × Str)}
    {o : Option Str} {r : ParsedZipSkill}
    (h : parseZipPackage b e o = .ok r) : r.zipHash = sha256Hex b := by
  unfold parseZipPackage at h
  split at h
  · exact absurd h (by simp)
  next p c _ =>
    split at h
    · exact absurd h (by simp)
    next parsed _ =>
      cases h
      rfl

/-! ## Claim theorems -/

/-- C8: the `archiveHash` (`zipHash`) returned by `parseZipPackage` is a
deterministic pure function of the input byte buffer — two successful
parses of byte-identical buffers agree on the hash whatever entries or
subdirectory hints accompany them — and is always 64 lowercase-hex
characters (a 256-bit digest, hex-encoded). -/
theorem zipHash_pure_function :
    (∀ (b : List Nat) (e₁ e₂ : List (Str × Str)) (o₁ o₂ : Option Str)
        (r₁ r₂ : ParsedZipSkill),
      parseZipPackage b e₁ o₁ = .ok r₁ → parseZipPackage b e₂ o₂ = .ok r₂ →
      r₁.zipHash = r₂.zipHash) ∧
    (∀ (b : List Nat) (e : List (Str × Str)) (o : Option Str) (r : ParsedZipSkill),
      parseZipPackage b e o = .ok r →
      r.zipHash.length = 64 ∧ r.zipHash.all isHexChar = true) := by
  constructor
  · intro b e₁ e₂ o₁ o₂ r₁ r₂ h₁ h₂
    rw [parseZipPackage_ok_zipHash h₁, parseZipPackage_ok_zipHash h₂]
  · intro b e o r h
    rw [parseZipPackage_ok_zipHash h]
    exact ⟨sha256Hex_length b, sha256Hex_all_hex b⟩

/-- Witness for C8: two parses of the same two-byte buffer, with different
entry sets and hints, produce the same hash. -/
theorem zipHash_pure_function_witness :
    ∃ r₁ r₂ : ParsedZipSkill,
      parseZipPackage [1, 2] [(toL "SKILL.md", sampleDoc)] none = .ok r₁ ∧
      parseZipPackage [1, 2] [(toL "SKILL.md", sampleDoc), (toL "extra.txt", toL "E")]
        (some []) = .ok r₂ ∧
      r₁.zipHash = r₂.zipHash ∧ r₁.zipHash.length = 64 := by
  refine ⟨_, _, rfl, rfl, ?_, ?_⟩
  · exact zipHash_pure_function.1 [1, 2] [(toL "SKILL.md", sampleDoc)]
      [(toL "SKILL.md", sampleDoc), (toL "extra.txt", toL "E")] none (some []) _ _ rfl rfl
  · exact (zipHash_pure_function.2 [1, 2] [(toL "SKILL.md", sampleDoc)] none _ rfl).1

/-- C1: evaluation at the failing archive.  The hidden-file and
`__MACOSX` filters of `extractResources` test the *full* archive entry
path while the emitted key is the path *relative* to the manifest's
directory, and `..` segments are never rejected: the entry
`my-skill/../evil.txt` yields the key `../evil.txt` (resolving outside
the base directory `my-skill/`) and `my-skill/.env` yields `.env`
(beginning with `.`). -/
theorem extractResources_path_escape :
    ∃ r, parseZipPackage [1]
        [(toL "my-skill/SKILL.md", sampleDoc),
         (toL "my-skill/../evil.txt", toL "X"),
         (toL "my-skill/.env", toL "Y")] none = .ok r ∧
      r.resources = [(toL "../evil.txt", toL "X"), (toL ".env", toL "Y")] ∧
      (toL "../").isPrefixOf (toL "../evil.txt") = true ∧
      (['.'] : Str).isPrefixOf (toL ".env") = true :=
  ⟨_, rfl, rfl, rfl, rfl⟩

/-- C9: `buildTree` is input-order-independent — permuting the path list
yields a structurally identical tree (the paths are sorted before
insertion, and sorting is a function of the multiset). -/
theorem buildTree_perm_invariant (l₁ l₂ : List Str) (h : l₁.Perm l₂) :
    buildTree l₁ = buildTree l₂ := by
  have hs : List.insertionSort (· ≤ ·) l₁ = List.insertionSort (· ≤ ·) l₂ :=
    List.eq_of_perm_of_sorted
      ((List.perm_insertionSort _ _).trans (h.trans (List.perm_insertionSort _ _).symm))
      (List.sorted_insertionSort _ _) (List.sorted_insertionSort _ _)
  unfold buildTree
  rw [hs]

/-- Witness for C9 at a concrete permutation. -/
theorem buildTree_perm_invariant_witness :
    buildTree [toL "lib/utils.ts", toL "README.md", toL "lib/helpers.ts"] =
      buildTree [toL "README.md", toL "lib/helpers.ts", toL "lib/utils.ts"] :=
  buildTree_perm_invariant _ _ (by decide)

/-- C4 (amended): the manifest entry is located by the first match in the
priority order (a) `<rootPfx><hint>/SKILL.md`, (b) the hint fallback
pattern, (c) root `SKILL.md` — outranking a first-level match whatever
the entry order — (d) first-level `*/SKILL.md`; when nothing matches,
`parseZipPackage` fails with a `SkillParseError` whose message is
`'SKILL.md not found in zip package'` (the claim's quoted substring
"manifest not found" amended to the actual message). -/
theorem findSkillMd_priority (unzipped : List (Str × Str)) (buffer : List Nat)
    (o : Option Str) :
    (∀ bp rp c, o = some bp → bp ≠ [] →
      findGitHubRootPfx (unzipped.map (·.1)) = some rp →
      lookupEntry unzipped (rp ++ stripSlashes bp ++ toL "/SKILL.md") = some c →
      findSkillMd unzipped o = some (rp ++ stripSlashes bp ++ toL "/SKILL.md", c)) ∧
    (∀ bp p c, o = some bp → bp ≠ [] →
      (∀ rp, findGitHubRootPfx (unzipped.map (·.1)) = some rp →
        lookupEntry unzipped (rp ++ stripSlashes bp ++ toL "/SKILL.md") = none) →
      (unzipped.map (·.1)).find? (basePatMatch (stripSlashes bp)) = some p →
      lookupEntry unzipped p = some c →
      findSkillMd unzipped o = some (p, c)) ∧
    (∀ c, hintStep unzipped o = none →
      lookupEntry unzipped (toL "SKILL.md") = some c →
      findSkillMd unzipped o = some (toL "SKILL.md", c)) ∧
    (∀ p c, hintStep unzipped o = none →
      lookupEntry unzipped (toL "SKILL.md") = none →
      (unzipped.map (·.1)).find? firstLevelMatch = some p →
      lookupEntry unzipped p = some c →
      findSkillMd unzipped o = some (p, c)) ∧
    (hintStep unzipped o = none →
      lookupEntry unzipped (toL "SKILL.md") = none →
      (unzipped.map (·.1)).find? firstLevelMatch = none →
      parseZipPackage buffer unzipped o =
        .error (.parseErr (toL "SKILL.md not found in zip package"))) := by
  refine ⟨?_, ?_, ?_, ?_, ?_⟩
  · intro bp rp c ho hbp hroot hlook
    subst ho
    unfold findSkillMd hintStep
    dsimp only
    rw [if_neg hbp, hroot]
    dsimp only
    rw [hlook]
    rfl
  · intro bp p c ho hbp hroot hfind hlook
    subst ho
    unfold findSkillMd hintStep
    dsimp only
    rw [if_neg hbp]
    cases hr : findGitHubRootPfx (unzipped.map (·.1)) with
    | none =>
      dsimp only
      rw [hfind]
      simp only [Option.some_bind, hlook, Option.map_some']
    | some rp =>
      dsimp only
      rw [hroot rp hr]
      dsimp only [Option.map_none']
      rw [hfind]
      simp only [Option.some_bind, hlook, Option.map_some']
  · intro c hh hlook
    unfold findSkillMd
    rw [hh, hlook]
  · intro p c hh hroot hfind hlook
    unfold findSkillMd
    rw [hh, hroot, hfind]
    simp only [Option.some_bind, hlook, Option.map_some']
  · intro hh hroot hfind
    unfold parseZipPackage findSkillMd
    rw [hh, hroot, hfind]
    rfl

/-- C4 counterexample: at an archive with no SKILL.md the error message is
`'SKILL.md not found in zip package'`, which does not contain the
substring `"manifest not found"` the claim quotes. -/
theorem findSkillMd_message_counterexample :
    parseZipPackage [1] [(toL "README.md", toL "x")] none =
      .error (.parseErr (toL "SKILL.md not found in zip package")) ∧
    infixOf (toL "manifest not found") (toL "SKILL.md not found in zip package") = false :=
  ⟨rfl, by decide⟩

/-- Witness for C4: a root manifest outranks an earlier-listed nested one
(case (c)), and a hinted remote archive resolves through the inferred
root prefix (case (a)). -/
theorem findSkillMd_priority_witness :
    findSkillMd [(toL "nested/SKILL.md", sampleDoc), (toL "SKILL.md", sampleDoc)] none =
      some (toL "SKILL.md", sampleDoc) ∧
    findSkillMd [(toL "repo-main/skills/foo/SKILL.md", sampleDoc)]
        (some (toL "skills/foo")) =
      some (toL "repo-main/skills/foo/SKILL.md", sampleDoc) := by
  constructor
  · exact (findSkillMd_priority
      [(toL "nested/SKILL.md", sampleDoc), (toL "SKILL.md", sampleDoc)] [] none).2.2.1
      sampleDoc rfl rfl
  · exact (findSkillMd_priority [(toL "repo-main/skills/foo/SKILL.md", sampleDoc)] []
      (some (toL "skills/foo"))).1 (toL "skills/foo") (toL "repo-main/") sampleDoc rfl
      (by decide) rfl rfl

theorem validateManifest_empty_desc (nm : Str) :
    ∃ m, validateManifest
      (Json.obj [(toL "description", Json.str []), (toL "name", Json.str nm)]) = .error m := by
  have hmem : toL "Skill description is required" ∈
      manifestIssues (Json.obj [(toL "description", Json.str []), (toL "name", Json.str nm)]) :=
    List.mem_cons_self _ _
  have hne := List.ne_nil_of_mem hmem
  refine ⟨toL "Invalid skill manifest: " ++ (toL ", ").intercalate
    (manifestIssues (Json.obj [(toL "description", Json.str []), (toL "name", Json.str nm)])), ?_⟩
  unfold validateManifest
  dsimp only
  rw [if_neg hne]

/-- C10: `createUserSkill` performs no manifest validation — the persisted
manifest is built directly from the input fields as
`{ description: input.description || '', name: input.name }` — so when no
description is supplied the stored manifest's description is the empty
string, which the validated-manifest invariant (non-empty description)
rejects. -/
theorem createUserSkill_unvalidated_manifest (st : Store) (input : CreateSkillInput)
    (gen : Str)
    (h : findByIdentifier st
      (match input.identifier with
       | some i => if i = [] then gen else i
       | none => gen) = none) :
    ∃ st' r, createUserSkill st input gen = .ok (st', r) ∧
      r.manifest = Json.obj [(toL "description", Json.str (input.description.getD [])),
                             (toL "name", Json.str input.name)] ∧
      r.source = toL "user" ∧
      (input.description = none → ∃ m, validateManifest r.manifest = .error m) := by
  unfold createUserSkill
  dsimp only
  rw [h]
  refine ⟨_, _, rfl, rfl, rfl, ?_⟩
  intro hd
  rw [hd]
  exact validateManifest_empty_desc input.name

/-- Witness for C10: a creation without description persists the manifest
`{description: "", name: "note"}`, which fails validation. -/
theorem createUserSkill_unvalidated_manifest_witness :
    ∃ st' r, createUserSkill [] ⟨toL "c", none, none, toL "note"⟩ (toL "user.u1.1") =
        .ok (st', r) ∧
      r.manifest = Json.obj [(toL "description", Json.str []), (toL "name", Json.str (toL "note"))] ∧
      r.source = toL "user" ∧
      (∃ m, validateManifest r.manifest = .error m) := by
  obtain ⟨st', r, h1, h2, h3, h4⟩ :=
    createUserSkill_unvalidated_manifest [] ⟨toL "c", none, none, toL "note"⟩ (toL "user.u1.1") rfl
  exact ⟨st', r, h1, h2, h3, h4 rfl⟩

/-- C7: every key ever uploaded by `storeResources` is exactly
`skills/source_files/<archiveHash>/<virtualPath>` for one of the given
resources (so one archive's resources share one prefix); processing is
strictly sequential in mapping order — when every resource succeeds the
outcome is the full mapping in order, and a failure at one resource
aborts the batch, uploading nothing after it while keeping (not rolling
back) everything uploaded before it. -/
theorem storeResources_sequential :
    (∀ (env : ResourceEnv) (h : Str) (res : List (Str × Str)) (k : Str),
      k ∈ (storeResources env h res).1 →
      ∃ p buf, (p, buf) ∈ res ∧ k = toL "skills/source_files/" ++ h ++ toL "/" ++ p) ∧
    (∀ (env : ResourceEnv) (h : Str) (res : List (Str × Str)),
      (∀ p ∈ res.map Prod.fst, env.failUpload p = false ∧ env.failRecord p = false) →
      storeResources env h res =
        (res.map (fun e => resourceKey h e.1),
         .ok (res.map (fun e => (e.1, env.fileIdOf e.1))))) ∧
    (∀ (env : ResourceEnv) (h : Str) (pre : List (Str × Str)) (p buf : Str)
        (rest : List (Str × Str)),
      (∀ q ∈ pre.map Prod.fst, env.failUpload q = false ∧ env.failRecord q = false) →
      (env.failUpload p = true ∨ env.failRecord p = true) →
      ∃ e, storeResources env h (pre ++ (p, buf) :: rest) =
        (pre.map (fun x => resourceKey h x.1) ++
          (if env.failUpload p then [] else [resourceKey h p]), .error e)) := by
  refine ⟨?_, ?_, ?_⟩
  · intro env h res
    induction res with
    | nil => intro k hk; exact absurd hk (by simp [storeResources])
    | cons e rest ih =>
      intro k hk
      by_cases hu : env.failUpload e.1
      · simp [storeResources, storeResource, hu] at hk
      · by_cases hr : env.failRecord e.1
        · simp [storeResources, storeResource, hu, hr] at hk
          exact ⟨e.1, e.2, by simp, by rw [hk]; rfl⟩
        · simp [storeResources, storeResource, hu, hr] at hk
          rcases hk with rfl | hk'
          · exact ⟨e.1, e.2, by simp, rfl⟩
          · obtain ⟨p, buf, hmem, hkey⟩ := ih k hk'
            exact ⟨p, buf, by simp [hmem], hkey⟩
  · intro env h res hok
    induction res with
    | nil => rfl
    | cons e rest ih =>
      have he := hok e.1 (by simp)
      have hrest : ∀ p ∈ rest.map Prod.fst,
          env.failUpload p = false ∧ env.failRecord p = false := by
        intro p hp; exact hok p (by simp [hp])
      simp [storeResources, storeResource, he.1, he.2, ih hrest, resourceKey]
  · intro env h pre p buf rest
    induction pre with
    | nil =>
      intro _ hfail
      by_cases hu : env.failUpload p
      · exact ⟨.resourceErr (toL "upload failed"),
          by simp [storeResources, storeResource, hu]⟩
      · have hr : env.failRecord p = true := by
          rcases hfail with hf | hf
          · exact absurd hf (by simp [hu])
          · exact hf
        exact ⟨.resourceErr (toL "file record failed"),
          by simp [storeResources, storeResource, hu, hr, resourceKey]⟩
    | cons q pre' ih =>
      intro hok hfail
      have hq := hok q.1 (by simp)
      have hpre' : ∀ r ∈ pre'.map Prod.fst,
          env.failUpload r = false ∧ env.failRecord r = false := by
        intro r hr; exact hok r (by simp [hr])
      obtain ⟨e, he⟩ := ih hpre' hfail
      refine ⟨e, ?_⟩
      simp only [List.cons_append]
      simp [storeResources, storeResource, hq.1, hq.2, he, resourceKey]

/-- Witness for C7: concretely, all-success produces the prefixed keys in
order, and a failure on the middle resource keeps the first upload,
skips the rest, and errors. -/
theorem storeResources_sequential_witness :
    storeResources envAllOk (toL "H") [(toL "a", toL "1"), (toL "b", toL "2")] =
      ([toL "skills/source_files/H/a", toL "skills/source_files/H/b"],
       .ok [(toL "a", toL "ia"), (toL "b", toL "ib")]) ∧
    ∃ e, storeResources envFailB (toL "H")
        [(toL "a", toL "1"), (toL "b", toL "2"), (toL "c", toL "3")] =
      ([toL "skills/source_files/H/a"], .error e) := by
  constructor
  · have h := storeResources_sequential.2.1 envAllOk (toL "H")
      [(toL "a", toL "1"), (toL "b", toL "2")] (by decide)
    rw [h]; rfl
  · obtain ⟨e, he⟩ := storeResources_sequential.2.2 envFailB (toL "H")
      [(toL "a", toL "1")] (toL "b") (toL "2") [(toL "c", toL "3")] (by decide) (by decide)
    refine ⟨e, ?_⟩
    rw [show ([(toL "a", toL "1"), (toL "b", toL "2"), (toL "c", toL "3")] :
      List (Str × Str)) = [(toL "a", toL "1")] ++ [(toL "b", toL "2"), (toL "c", toL "3")]
      from rfl, he]
    rfl

/-- C3: the repository-import identifier is
`github.<owner>.<repo>` plus, when the reference has a subdirectory,
`.` and the subdirectory with every `/` replaced by `.`; a second import
of the same reference finds the record by identifier and updates it in
place — the id is preserved, content/manifest/resources/hash replaced —
instead of creating a duplicate, and new records carry source `market`.
The store hypotheses are the record-store invariants: ids are the
creation indices and the identifier is not yet taken. -/
theorem importGitHubPersist_idempotent_identifier
    (st : Store) (info : RepoInfo) (g : Str) (p₁ p₂ : GitHubParsed)
    (hids : ∀ r ∈ st, r.id < st.length)
    (hfree : findByIdentifier st (ghIdentifier info) = none) :
    ∃ r₁ r₂, importGitHubPersist st info g p₁ = (st ++ [r₁], r₁) ∧
      importGitHubPersist (st ++ [r₁]) info g p₂ = (st ++ [r₂], r₂) ∧
      r₁.identifier = toL "github." ++ info.owner ++ toL "." ++ info.repo ++
        (match info.path with
         | some q => if q = [] then [] else '.' :: q.map (fun c => if c = '/' then '.' else c)
         | none => []) ∧
      r₁.source = toL "market" ∧
      r₂.id = r₁.id ∧ r₂.identifier = r₁.identifier ∧ r₂.source = r₁.source ∧
      r₂.content = p₂.content ∧
      r₂.manifest = ghFullManifest p₂.manifest g info ∧
      r₂.resources = p₂.resourceIds ∧ r₂.zipFileHash = p₂.zipHash := by
  set c₁ : SkillRecord :=
    { id := st.length, identifier := ghIdentifier info,
      name := jsonField p₁.manifest (toL "name"),
      description := jsonField p₁.manifest (toL "description"),
      content := p₁.content, manifest := ghFullManifest p₁.manifest g info,
      resources := p₁.resourceIds, source := toL "market",
      zipFileHash := p₁.zipHash } with hc₁
  set c₂ : SkillRecord :=
    { id := st.length, identifier := ghIdentifier info,
      name := jsonField p₂.manifest (toL "name"),
      description := jsonField p₂.manifest (toL "description"),
      content := p₂.content, manifest := ghFullManifest p₂.manifest g info,
      resources := p₂.resourceIds, source := toL "market",
      zipFileHash := p₂.zipHash } with hc₂
  have h1 : importGitHubPersist st info g p₁ = (st ++ [c₁], c₁) := by
    unfold importGitHubPersist
    dsimp only
    rw [hfree]
  have hfind2 : findByIdentifier (st ++ [c₁]) (ghIdentifier info) = some c₁ := by
    unfold findByIdentifier at hfree ⊢
    rw [List.find?_append, hfree]
    simp [hc₁]
  have h2 : importGitHubPersist (st ++ [c₁]) info g p₂ =
      ((st ++ [c₁]).map (fun r => if r.id = c₁.id then c₂ else r), c₂) := by
    unfold importGitHubPersist
    dsimp only
    rw [hfind2]
  have hmap : (st ++ [c₁]).map (fun r => if r.id = c₁.id then c₂ else r) = st ++ [c₂] := by
    rw [List.map_append]
    congr 1
    · have hpt : ∀ r ∈ st, (if r.id = c₁.id then c₂ else r) = id r := by
        intro r hr
        have : c₁.id = st.length := rfl
        rw [if_neg (by rw [this]; exact Nat.ne_of_lt (hids r hr))]
        rfl
      rw [List.map_congr_left hpt, List.map_id]
    · simp
  exact ⟨c₁, c₂, h1, by rw [h2, hmap], rfl, rfl, rfl, rfl, rfl, rfl, rfl, rfl, rfl⟩

/-- Witness for C3: importing `acme/tools` at subdirectory `skills/foo`
twice yields the stable identifier `github.acme.tools.skills.foo` and an
update in place. -/
theorem importGitHubPersist_idempotent_identifier_witness :
    ∃ r₁ r₂,
      importGitHubPersist [] ⟨toL "main", toL "acme", some (toL "skills/foo"), toL "tools"⟩
        (toL "https://github.com/acme/tools/tree/main/skills/foo")
        ⟨toL "c1", Json.obj [], [], none⟩ = ([r₁], r₁) ∧
      importGitHubPersist [r₁] ⟨toL "main", toL "acme", some (toL "skills/foo"), toL "tools"⟩
        (toL "https://github.com/acme/tools/tree/main/skills/foo")
        ⟨toL "c2", Json.obj [], [], some (toL "h")⟩ = ([r₂], r₂) ∧
      r₁.identifier = toL "github.acme.tools.skills.foo" ∧
      r₁.source = toL "market" ∧ r₂.id = r₁.id ∧
      r₂.identifier = toL "github.acme.tools.skills.foo" ∧
      r₂.content = toL "c2" ∧ r₂.zipFileHash = some (toL "h") := by
  obtain ⟨r₁, r₂, h1, h2, hid, hsrc, hidsame, hident2, _, hcont, _, _, hzip⟩ :=
    importGitHubPersist_idempotent_identifier []
      ⟨toL "main", toL "acme", some (toL "skills/foo"), toL "tools"⟩
      (toL "https://github.com/acme/tools/tree/main/skills/foo")
      ⟨toL "c1", Json.obj [], [], none⟩ ⟨toL "c2", Json.obj [], [], some (toL "h")⟩
      (by simp) rfl
  refine ⟨r₁, r₂, h1, h2, ?_, hsrc, hidsame, ?_, hcont, hzip⟩
  · rw [hid]; rfl
  · rw [hident2, hid]; rfl

/-- C2 (amended): `importFromGitHub` translates URL-parse failures to
`INVALID_URL` and download failures to `NOT_FOUND`/`DOWNLOAD_FAILED`,
and `createUserSkill` fails only with `CONFLICT`; but the zip parse,
resource storage and zip upload are not wrapped, so `SkillParseError`,
`SkillManifestError` and storage errors cross the orchestrator boundary
untranslated — every escaping error is either one of those translated
`SkillImportError`s or a raw lower-layer error (and `importFromZip`
translates nothing at all). -/
theorem orchestrator_error_translation :
    (∀ (st : Store) (input : ImportGitHubInput) download env uploadZip m,
      parseRepoUrl input.gitUrl (input.branch.getD (toL "main")) = .error m →
      importFromGitHub st input download env uploadZip =
        .error (.importErr .INVALID_URL m)) ∧
    (∀ (st : Store) (input : ImportGitHubInput) download env uploadZip info m,
      parseRepoUrl input.gitUrl (input.branch.getD (toL "main")) = .ok info →
      download info = .error (.notFound m) →
      importFromGitHub st input download env uploadZip =
        .error (.importErr .NOT_FOUND m)) ∧
    (∀ (st : Store) (input : ImportGitHubInput) download env uploadZip info m,
      parseRepoUrl input.gitUrl (input.branch.getD (toL "main")) = .ok info →
      download info = .error (.other m) →
      importFromGitHub st input download env uploadZip =
        .error (.importErr .DOWNLOAD_FAILED
          (toL "Failed to download GitHub repository: " ++ m))) ∧
    (∀ (st : Store) (input : ImportGitHubInput) download env uploadZip info buffer entries e,
      parseRepoUrl input.gitUrl (input.branch.getD (toL "main")) = .ok info →
      download info = .ok (buffer, entries) →
      parseZipPackage buffer entries info.path = .error e →
      importFromGitHub st input download env uploadZip = .error e) ∧
    (∀ (st : Store) (input : ImportGitHubInput) download env uploadZip e,
      importFromGitHub st input download env uploadZip = .error e →
      (∃ m, e = .importErr .INVALID_URL m) ∨ (∃ m, e = .importErr .NOT_FOUND m) ∨
      (∃ m, e = .importErr .DOWNLOAD_FAILED m) ∨
      (∃ info buffer entries,
        parseRepoUrl input.gitUrl (input.branch.getD (toL "main")) = .ok info ∧
        download info = .ok (buffer, entries) ∧
        (parseZipPackage buffer entries info.path = .error e ∨
         ∃ parsed, parseZipPackage buffer entries info.path = .ok parsed ∧
           ((storeResources env parsed.zipHash parsed.resources).2 = .error e ∨
            uploadZip = .error e)))) ∧
    (∀ (st : Store) (input : CreateSkillInput) gen e,
      createUserSkill st input gen = .error e → ∃ m, e = .importErr .CONFLICT m) ∧
    (∀ (st : Store) zf env gen e,
      importFromZip st zf env gen = .error e →
      zf = .error e ∨
      ∃ buffer entries, zf = .ok (buffer, entries) ∧
        (parseZipPackage buffer entries none = .error e ∨
         ∃ parsed, parseZipPackage buffer entries none = .ok parsed ∧
           (storeResources env parsed.zipHash parsed.resources).2 = .error e)) := by
  refine ⟨?_, ?_, ?_, ?_, ?_, ?_, ?_⟩
  · intro st input download env uploadZip m hp
    unfold importFromGitHub
    rw [hp]
  · intro st input download env uploadZip info m hp hd
    unfold importFromGitHub
    rw [hp]
    dsimp only
    rw [hd]
  · intro st input download env uploadZip info m hp hd
    unfold importFromGitHub
    rw [hp]
    dsimp only
    rw [hd]
  · intro st input download env uploadZip info buffer entries e hp hd hz
    unfold importFromGitHub
    rw [hp]
    dsimp only
    rw [hd]
    dsimp only
    rw [hz]
  · intro st input download env uploadZip e h
    unfold importFromGitHub at h
    cases hp : parseRepoUrl input.gitUrl (input.branch.getD (toL "main")) with
    | error m =>
      rw [hp] at h
      dsimp only at h
      exact Or.inl ⟨m, ((Except.error.injEq _ _).mp h).symm⟩
    | ok info =>
      rw [hp] at h
      dsimp only at h
      cases hd : download info with
      | error de =>
        cases de with
        | notFound m =>
          rw [hd] at h
          dsimp only at h
          exact Or.inr (Or.inl ⟨m, ((Except.error.injEq _ _).mp h).symm⟩)
        | other m =>
          rw [hd] at h
          dsimp only at h
          exact Or.inr (Or.inr (Or.inl ⟨_, ((Except.error.injEq _ _).mp h).symm⟩))
      | ok be =>
        obtain ⟨buffer, entries⟩ := be
        rw [hd] at h
        dsimp only at h
        cases hz : parseZipPackage buffer entries info.path with
        | error e' =>
          rw [hz] at h
          dsimp only at h
          refine Or.inr (Or.inr (Or.inr ⟨info, buffer, entries, rfl, hd, Or.inl ?_⟩))
          rw [hz, (Except.error.injEq _ _).mp h]
        | ok parsed =>
          rw [hz] at h
          dsimp only at h
          cases hs : (storeResources env parsed.zipHash parsed.resources).2 with
          | error e' =>
            rw [hs] at h
            dsimp only at h
            refine Or.inr (Or.inr (Or.inr ⟨info, buffer, entries, rfl, hd,
              Or.inr ⟨parsed, hz, Or.inl ?_⟩⟩))
            rw [hs, (Except.error.injEq _ _).mp h]
          | ok ids =>
            rw [hs] at h
            dsimp only at h
            cases hu : uploadZip with
            | error e' =>
              rw [hu] at h
              dsimp only at h
              exact Or.inr (Or.inr (Or.inr ⟨info, buffer, entries, rfl, hd,
                Or.inr ⟨parsed, hz, Or.inr (by rw [(Except.error.injEq _ _).mp h])⟩⟩))
            | ok u =>
              rw [hu] at h
              dsimp only at h
              exact absurd h (by simp)
  · intro st input gen e h
    unfold createUserSkill at h
    dsimp only at h
    split at h
    · exact ⟨_, ((Except.error.injEq _ _).mp h).symm⟩
    · exact absurd h (by simp)
  · intro st zf env gen e h
    unfold importFromZip at h
    cases hzf : zf with
    | error e' =>
      rw [hzf] at h
      dsimp only at h
      exact Or.inl (by rw [(Except.error.injEq _ _).mp h])
    | ok be =>
      obtain ⟨buffer, entries⟩ := be
      rw [hzf] at h
      dsimp only at h
      cases hpz : parseZipPackage buffer entries none with
      | error e' =>
        rw [hpz] at h
        dsimp only at h
        refine Or.inr ⟨buffer, entries, rfl, Or.inl ?_⟩
        rw [hpz, (Except.error.injEq _ _).mp h]
      | ok parsed =>
        rw [hpz] at h
        dsimp only at h
        cases hs : (storeResources env parsed.zipHash parsed.resources).2 with
        | error e' =>
          rw [hs] at h
          dsimp only at h
          refine Or.inr ⟨buffer, entries, rfl, Or.inr ⟨parsed, hpz, ?_⟩⟩
          rw [hs, (Except.error.injEq _ _).mp h]
        | ok ids =>
          rw [hs] at h
          dsimp only at h
          exact absurd h (by simp)

/-- C2 counterexample: a GitHub import whose downloaded archive has no
SKILL.md lets the raw `SkillParseError` cross the orchestrator boundary
— the escaping error is not a `SkillImportError` at all. -/
theorem orchestrator_error_translation_counterexample :
    importFromGitHub [] ⟨toL "https://github.com/acme/tools", none⟩ dlNoSkill envAllOk
        (.ok ()) =
      .error (.parseErr (toL "SKILL.md not found in zip package")) ∧
    SkillErr.isImportErr (.parseErr (toL "SKILL.md not found in zip package")) = false :=
  ⟨rfl, rfl⟩

/-- Witness for C2: a 404 download is translated to `NOT_FOUND`. -/
theorem orchestrator_error_translation_witness :
    importFromGitHub [] ⟨toL "https://github.com/acme/tools", none⟩ dl404 envAllOk
        (.ok ()) =
      .error (.importErr .NOT_FOUND (toL "Repository not found: acme/tools@main")) :=
  orchestrator_error_translation.2.1 [] ⟨toL "https://github.com/acme/tools", none⟩
    dl404 envAllOk (.ok ()) ⟨toL "main", toL "acme", none, toL "tools"⟩
    (toL "Repository not found: acme/tools@main") rfl rfl

theorem strIssues_req_nil {fields : List (Str × Json)} {k msg : Str}
    (h : (match getField? fields k with
          | some (Json.str s) => decide (s ≠ [])
          | _ => false) = true) :
    strIssues fields k (some msg) false = [] := by
  unfold strIssues
  cases hf : getField? fields k with
  | none => rw [hf] at h; simp at h
  | some v =>
    rw [hf] at h
    cases v
    case str s =>
      simp only [decide_eq_true_eq] at h
      simp [h]
    all_goals simp at h

theorem strIssues_url_nil {fields : List (Str × Json)} {k : Str}
    (h : (match getField? fields k with
          | none => true
          | some (Json.str s) => urlOk s
          | some _ => false) = true) :
    strIssues fields k none true = [] := by
  unfold strIssues
  cases hf : getField? fields k with
  | none => rfl
  | some v =>
    rw [hf] at h
    cases v
    case str s => simp at h; simp [h]
    all_goals simp at h

theorem strIssues_opt_nil {fields : List (Str × Json)} {k : Str}
    (h : (match getField? fields k with
          | none => true
          | some (Json.str _) => true
          | some _ => false) = true) :
    strIssues fields k none false = [] := by
  unfold strIssues
  cases hf : getField? fields k with
  | none => rfl
  | some v =>
    rw [hf] at h
    cases v
    case str s => simp
    all_goals simp at h

theorem authorIssues_nil {fields : List (Str × Json)}
    (h : (match getField? fields (toL "author") with
          | none => true
          | some (Json.obj af) =>
              (match getField? af (toL "name") with
               | some (Json.str _) => true | _ => false) &&
              (match getField? af (toL "url") with
               | none => true | some (Json.str s) => urlOk s | some _ => false)
          | some _ => false) = true) :
    authorIssues fields = [] := by
  unfold authorIssues
  cases hf : getField? fields (toL "author") with
  | none => rfl
  | some v =>
    rw [hf] at h
    cases v
    case obj af =>
      dsimp only
      rw [Bool.and_eq_true] at h
      obtain ⟨hA, hB⟩ := h
      cases hn : getField? af (toL "name") with
      | none => rw [hn] at hA; simp at hA
      | some w =>
        rw [hn] at hA
        cases w
        case str s =>
          cases hu : getField? af (toL "url") with
          | none => rfl
          | some w2 =>
            rw [hu] at hB
            cases w2
            case str s2 => simp at hB; simp [hB]
            all_goals simp at hB
        all_goals simp at hA
    all_goals simp at h

theorem permissionsIssues_nil {fields : List (Str × Json)}
    (h : (match getField? fields (toL "permissions") with
          | none => true
          | some (Json.arr xs) =>
              xs.all (fun x => match x with | Json.str _ => true | _ => false)
          | some _ => false) = true) :
    permissionsIssues fields = [] := by
  unfold permissionsIssues
  cases hf : getField? fields (toL "permissions") with
  | none => rfl
  | some v =>
    rw [hf] at h
    cases v
    case arr xs =>
      simp at h
      have hx : xs.all (fun x => match x with | Json.str _ => true | _ => false) = true :=
        List.all_eq_true.mpr (by intro x hxm; exact h x hxm)
      simp [hx]
    all_goals simp at h

theorem mem_issues_name_missing {fields : List (Str × Json)}
    (h : getField? fields (toL "name") = none) :
    toL "Required" ∈ manifestIssues (Json.obj fields) := by
  have hE : toL "Required" ∈
      strIssues fields (toL "name") (some (toL "Skill name is required")) false := by
    unfold strIssues
    rw [h]
    exact List.mem_singleton_self _
  unfold manifestIssues
  simp only [List.mem_append]
  exact Or.inl (Or.inl (Or.inl (Or.inr hE)))

theorem mem_issues_name_empty {fields : List (Str × Json)}
    (h : getField? fields (toL "name") = some (Json.str [])) :
    toL "Skill name is required" ∈ manifestIssues (Json.obj fields) := by
  have hE : toL "Skill name is required" ∈
      strIssues fields (toL "name") (some (toL "Skill name is required")) false := by
    unfold strIssues
    rw [h]
    exact List.mem_singleton_self _
  unfold manifestIssues
  simp only [List.mem_append]
  exact Or.inl (Or.inl (Or.inl (Or.inr hE)))

theorem mem_issues_desc_missing {fields : List (Str × Json)}
    (h : getField? fields (toL "description") = none) :
    toL "Required" ∈ manifestIssues (Json.obj fields) := by
  have hB : toL "Required" ∈
      strIssues fields (toL "description") (some (toL "Skill description is required")) false := by
    unfold strIssues
    rw [h]
    exact List.mem_singleton_self _
  unfold manifestIssues
  simp only [List.mem_append]
  exact Or.inl (Or.inl (Or.inl (Or.inl (Or.inl (Or.inl (Or.inr hB))))))

theorem mem_issues_desc_empty {fields : List (Str × Json)}
    (h : getField? fields (toL "description") = some (Json.str [])) :
    toL "Skill description is required" ∈ manifestIssues (Json.obj fields) := by
  have hB : toL "Skill description is required" ∈
      strIssues fields (toL "description") (some (toL "Skill description is required")) false := by
    unfold strIssues
    rw [h]
    exact List.mem_singleton_self _
  unfold manifestIssues
  simp only [List.mem_append]
  exact Or.inl (Or.inl (Or.inl (Or.inl (Or.inl (Or.inl (Or.inr hB))))))

/-- C5 (amended): `validateManifest` returns any *well-typed* data object
unchanged — every schema-recognised field, when present, must also carry
its declared shape (in particular `author.name` must be a string, which
the original claim's hypotheses omitted), while unknown fields are never
a cause of rejection — and for a missing or empty-string `name` or
`description` it fails with a `SkillManifestError` whose message joins
every violated-field reason. -/
theorem validateManifest_schema :
    (∀ j : Json, wellTypedManifest j = true → validateManifest j = .ok j) ∧
    (∀ fields : List (Str × Json),
      (getField? fields (toL "name") = none ∨
       getField? fields (toL "name") = some (Json.str []) ∨
       getField? fields (toL "description") = none ∨
       getField? fields (toL "description") = some (Json.str [])) →
      ∃ issues, validateManifest (Json.obj fields) =
          .error (toL "Invalid skill manifest: " ++ (toL ", ").intercalate issues) ∧
        issues ≠ [] ∧
        (getField? fields (toL "name") = none → toL "Required" ∈ issues) ∧
        (getField? fields (toL "name") = some (Json.str []) →
          toL "Skill name is required" ∈ issues) ∧
        (getField? fields (toL "description") = none → toL "Required" ∈ issues) ∧
        (getField? fields (toL "description") = some (Json.str []) →
          toL "Skill description is required" ∈ issues)) := by
  constructor
  · intro j h
    cases j
    case obj fields =>
      unfold wellTypedManifest at h
      simp only [Bool.and_eq_true, and_assoc] at h
      obtain ⟨h1, h2, h3, h4, h5, h6, h7, h8⟩ := h
      have hiss : manifestIssues (Json.obj fields) = [] := by
        unfold manifestIssues
        dsimp only
        rw [authorIssues_nil h3, strIssues_req_nil h2, strIssues_url_nil h4,
          strIssues_opt_nil h6, strIssues_req_nil h1, permissionsIssues_nil h8,
          strIssues_url_nil h5, strIssues_opt_nil h7]
        rfl
      unfold validateManifest
      dsimp only
      rw [hiss]
      rfl
    all_goals simp [wellTypedManifest] at h
  · intro fields hviol
    have hne : manifestIssues (Json.obj fields) ≠ [] := by
      rcases hviol with h | h | h | h
      · exact List.ne_nil_of_mem (mem_issues_name_missing h)
      · exact List.ne_nil_of_mem (mem_issues_name_empty h)
      · exact List.ne_nil_of_mem (mem_issues_desc_missing h)
      · exact List.ne_nil_of_mem (mem_issues_desc_empty h)
    refine ⟨manifestIssues (Json.obj fields), ?_, hne, ?_, ?_, ?_, ?_⟩
    · unfold validateManifest
      dsimp only
      rw [if_neg hne]
    · exact mem_issues_name_missing
    · exact mem_issues_name_empty
    · exact mem_issues_desc_missing
    · exact mem_issues_desc_empty

/-- C5 counterexample: this object satisfies every hypothesis the claim
states — non-empty `name` and `description`, a well-formed `author.url` —
yet `validateManifest` rejects it ("Required" for the missing
`author.name`) instead of returning it unchanged. -/
theorem validateManifest_counterexample :
    specValidateHyp authorNoNameJson = true ∧
    validateManifest authorNoNameJson = .error (toL "Invalid skill manifest: Required") :=
  ⟨by decide, rfl⟩

/-- Witness for C5: a well-typed manifest with an unknown extra field
passes through unchanged; an object with empty description and missing
name fails with both reasons joined. -/
theorem validateManifest_schema_witness :
    validateManifest goodManifestJson = .ok goodManifestJson ∧
    ∃ issues, validateManifest (Json.obj [(toL "description", Json.str [])]) =
        .error (toL "Invalid skill manifest: " ++ (toL ", ").intercalate issues) ∧
      toL "Required" ∈ issues ∧ toL "Skill description is required" ∈ issues := by
  constructor
  · exact validateManifest_schema.1 goodManifestJson (by decide)
  · obtain ⟨issues, herr, _, hnm, _, _, hde⟩ :=
      validateManifest_schema.2 [(toL "description", Json.str [])] (Or.inl rfl)
    exact ⟨issues, herr, hnm rfl, hde rfl⟩

theorem dropPre_append (p r : Str) : dropPre p (p ++ r) = some r := by
  induction p with
  | nil => rfl
  | cons c cs ih => simp [dropPre, ih]

theorem dropPre_head_ne {c d : Char} (p l : Str) (h : c ≠ d) :
    dropPre (c :: p) (d :: l) = none := by
  simp [dropPre, h]

theorem splitFirst_append {c : Char} (a b : Str) (hc : c ∉ a) :
    splitFirst c (a ++ c :: b) = some (a, b) := by
  induction a with
  | nil => simp [splitFirst]
  | cons x xs ih =>
    have hx : x ≠ c := fun hxx => hc (hxx ▸ List.mem_cons_self x xs)
    have hxs : c ∉ xs := fun hm => hc (List.mem_cons_of_mem _ hm)
    simp [splitFirst, hx, ih hxs]

theorem splitFirst_eq_none {c : Char} (a : Str) (hc : c ∉ a) :
    splitFirst c a = none := by
  induction a with
  | nil => rfl
  | cons x xs ih =>
    have hx : x ≠ c := fun hxx => hc (hxx ▸ List.mem_cons_self x xs)
    have hxs : c ∉ xs := fun hm => hc (List.mem_cons_of_mem _ hm)
    simp [splitFirst, hx, ih hxs]

theorem stripGitCaptured_id (s : Str) (h : (toL ".git").isSuffixOf s = false) :
    stripGitCaptured s = s := by
  simp [stripGitCaptured, h]

theorem stripGitReplace_id (s : Str) (h : (toL ".git").isSuffixOf s = false) :
    stripGitReplace s = s := by
  simp [stripGitReplace, h]

theorem stripGit_strip (r : Str) (hne : r ≠ []) (h : (toL ".git").isSuffixOf r = false) :
    stripGitReplace (stripGitCaptured (r ++ toL ".git")) = r := by
  have hsuf : (toL ".git").isSuffixOf (r ++ toL ".git") = true :=
    List.isSuffixOf_iff_suffix.mpr (List.suffix_append r (toL ".git"))
  have hpos : 0 < r.length := List.length_pos.mpr hne
  have h4 : (toL ".git").length = 4 := rfl
  have hlen : 4 < (r ++ toL ".git").length := by
    simp only [List.length_append]
    omega
  have hcap : stripGitCaptured (r ++ toL ".git") = r := by
    unfold stripGitCaptured
    rw [hsuf]
    rw [if_pos (by simp only [Bool.true_and, decide_eq_true_eq]; exact hlen)]
    rw [show (r ++ toL ".git").length - 4 = r.length by
      simp only [List.length_append]; omega]
    exact List.take_left r (toL ".git")
  rw [hcap, stripGitReplace_id r h]

theorem coreParseGh_plain (o r : Str) (ho : o ≠ []) (hos : '/' ∉ o) (hr : r ≠ [])
    (hrs : '/' ∉ r) (hg : (toL ".git").isSuffixOf r = false) :
    coreParseGh (o ++ '/' :: r) = some ⟨o, r, none, none⟩ := by
  unfold coreParseGh
  rw [splitFirst_append o r hos]
  try dsimp only
  rw [if_neg ho, splitFirst_eq_none r hrs]
  try dsimp only
  rw [if_neg hr, stripGitCaptured_id r hg, stripGitReplace_id r hg]

theorem coreParseGh_git (o r : Str) (ho : o ≠ []) (hos : '/' ∉ o) (hr : r ≠ [])
    (hrs : '/' ∉ r) (hg : (toL ".git").isSuffixOf r = false) :
    coreParseGh (o ++ '/' :: (r ++ toL ".git")) = some ⟨o, r, none, none⟩ := by
  have hgs : '/' ∉ r ++ toL ".git" := by
    intro hm
    rcases List.mem_append.mp hm with hm | hm
    · exact hrs hm
    · simp [toL] at hm
  unfold coreParseGh
  rw [splitFirst_append o _ hos]
  try dsimp only
  rw [if_neg ho, splitFirst_eq_none _ hgs]
  try dsimp only
  rw [if_neg (by simp [hr]), stripGit_strip r hr hg]

theorem coreParseGh_tree (o r br : Str) (ho : o ≠ []) (hos : '/' ∉ o) (hr : r ≠ [])
    (hrs : '/' ∉ r) (hg : (toL ".git").isSuffixOf r = false)
    (hbr : br ≠ []) (hbrs : '/' ∉ br) :
    coreParseGh (o ++ '/' :: (r ++ '/' :: (toL "tree/" ++ br))) =
      some ⟨o, r, some br, none⟩ := by
  unfold coreParseGh
  rw [splitFirst_append o _ hos]
  try dsimp only
  rw [if_neg ho, splitFirst_append r _ hrs]
  try dsimp only
  rw [if_neg hr, dropPre_append (toL "tree/") br]
  try dsimp only
  rw [splitFirst_eq_none br hbrs]
  try dsimp only
  rw [if_neg hbr, stripGitCaptured_id r hg, stripGitReplace_id r hg]

theorem coreParseGh_tree_path (o r br p : Str) (ho : o ≠ []) (hos : '/' ∉ o)
    (hr : r ≠ []) (hrs : '/' ∉ r) (hg : (toL ".git").isSuffixOf r = false)
    (hbr : br ≠ []) (hbrs : '/' ∉ br) (hp : p ≠ []) (hpl : p.any isLineTerm = false) :
    coreParseGh (o ++ '/' :: (r ++ '/' :: (toL "tree/" ++ (br ++ '/' :: p)))) =
      some ⟨o, r, some br, some p⟩ := by
  unfold coreParseGh
  rw [splitFirst_append o _ hos]
  try dsimp only
  rw [if_neg ho, splitFirst_append r _ hrs]
  try dsimp only
  rw [if_neg hr, dropPre_append (toL "tree/") _]
  try dsimp only
  rw [splitFirst_append br p hbrs]
  try dsimp only
  rw [if_neg hbr, if_neg hp, hpl]
  try dsimp only
  rw [stripGitCaptured_id r hg, stripGitReplace_id r hg]
  simp

theorem coreParse_noProto (w : Str) :
    coreParse (toL "github.com/" ++ w) = coreParseGh w := by
  unfold coreParse
  rw [show toL "github.com/" ++ w = 'g' :: (toL "ithub.com/" ++ w) from rfl]
  rw [show toL "https://" = 'h' :: toL "ttps://" from rfl,
    dropPre_head_ne _ _ (by decide)]
  rw [show toL "http://" = 'h' :: toL "ttp://" from rfl,
    dropPre_head_ne _ _ (by decide)]
  dsimp only
  rw [show ('g' : Char) :: (toL "ithub.com/" ++ w) = toL "github.com/" ++ w from rfl,
    dropPre_append (toL "github.com/") w]

theorem coreParse_https (w : Str) :
    coreParse (toL "https://github.com/" ++ w) = coreParseGh w := by
  unfold coreParse
  rw [show toL "https://github.com/" ++ w = toL "https://" ++ (toL "github.com/" ++ w)
    from by rw [← List.append_assoc]; rfl]
  rw [dropPre_append (toL "https://") _]
  dsimp only
  rw [dropPre_append (toL "github.com/") w]

theorem scanCore_of_here {l : Str} {m : CoreMatch} (h : coreParse l = some m) :
    scanCore l = some m := by
  cases l with
  | nil => simpa [scanCore] using h
  | cons c t => simp [scanCore, h]

theorem all_word_no_slash {a : Str} (hw : a.all isWordChar = true) : '/' ∉ a := by
  intro hm
  have := List.all_eq_true.mp hw '/' hm
  simp [isWordChar] at this

theorem shorthandSplit_eq_none (a b : Str) (ha : '/' ∉ a)
    (hab : a.all isWordChar = false ∨ '/' ∈ b) :
    shorthandSplit (a ++ '/' :: b) = none := by
  unfold shorthandSplit
  rw [splitFirst_append a b ha]
  dsimp only
  rcases hab with hw | hb
  · simp [hw]
  · have : b.all isWordChar = false := by
      cases hall : b.all isWordChar
      · rfl
      · have := List.all_eq_true.mp hall '/' hb
        simp [isWordChar] at this
    simp [this]

theorem parseRepoUrl_gh (w db : Str) (m : CoreMatch) (proto : Bool)
    (hw : '/' ∈ w) (hc : coreParseGh w = some m) :
    parseRepoUrl ((if proto then toL "https://" else []) ++ (toL "github.com/" ++ w)) db =
      .ok ⟨m.branch.getD db, m.owner, m.path, m.repo⟩ := by
  cases proto with
  | false =>
    rw [if_neg (by simp), List.nil_append]
    unfold parseRepoUrl
    rw [show toL "github.com/" ++ w = toL "github.com" ++ '/' :: w from rfl]
    rw [shorthandSplit_eq_none (toL "github.com") w (by decide) (Or.inr hw)]
    rw [show toL "github.com" ++ '/' :: w = toL "github.com/" ++ w from rfl]
    rw [scanCore_of_here ((coreParse_noProto w).trans hc)]
  | true =>
    rw [if_pos rfl]
    unfold parseRepoUrl
    rw [show toL "https://" ++ (toL "github.com/" ++ w) =
      toL "https:" ++ '/' :: (toL "/github.com/" ++ w) from by
        rw [← List.append_assoc]; rfl]
    rw [shorthandSplit_eq_none (toL "https:") _ (by decide) (Or.inl (by decide))]
    rw [show toL "https:" ++ '/' :: (toL "/github.com/" ++ w) =
      toL "https://github.com/" ++ w from by
        rw [show ('/' : Char) :: (toL "/github.com/" ++ w) =
          ('/' :: toL "/github.com/") ++ w from rfl, ← List.append_assoc]
        rfl]
    rw [scanCore_of_here ((coreParse_https w).trans hc)]

/-- C6 (amended): `parseRepoUrl` accepts the five URL forms — bare
`owner/repo` (word characters, repo kept verbatim);
`(https://)?github.com/owner/repo`; the same with `/tree/<branch>`; the
same with `/tree/<branch>/<subdirectory...>` where the first segment
after `tree/` is always taken as the complete branch; the `.git` suffix
stripped from the repo — but, the host pattern being unanchored at the
start, it also accepts any input whose *suffix* matches the
`github.com` pattern (e.g. `https://nongithub.com/owner/repo`); inputs
matching neither pattern fail with a `GitHubParseError`. -/
theorem parseRepoUrl_url_forms :
    (∀ (o r db : Str), o ≠ [] → r ≠ [] →
      o.all isWordChar = true → r.all isWordChar = true →
      parseRepoUrl (o ++ '/' :: r) db = .ok ⟨db, o, none, r⟩) ∧
    (∀ (proto : Bool) (o r db : Str), o ≠ [] → '/' ∉ o → r ≠ [] → '/' ∉ r →
      (toL ".git").isSuffixOf r = false →
      parseRepoUrl ((if proto then toL "https://" else []) ++
        (toL "github.com/" ++ (o ++ '/' :: r))) db = .ok ⟨db, o, none, r⟩) ∧
    (∀ (proto : Bool) (o r br db : Str), o ≠ [] → '/' ∉ o → r ≠ [] → '/' ∉ r →
      (toL ".git").isSuffixOf r = false → br ≠ [] → '/' ∉ br →
      parseRepoUrl ((if proto then toL "https://" else []) ++
        (toL "github.com/" ++ (o ++ '/' :: (r ++ '/' :: (toL "tree/" ++ br))))) db =
        .ok ⟨br, o, none, r⟩) ∧
    (∀ (proto : Bool) (o r br p db : Str), o ≠ [] → '/' ∉ o → r ≠ [] → '/' ∉ r →
      (toL ".git").isSuffixOf r = false → br ≠ [] → '/' ∉ br → p ≠ [] →
      p.any isLineTerm = false →
      parseRepoUrl ((if proto then toL "https://" else []) ++
        (toL "github.com/" ++
          (o ++ '/' :: (r ++ '/' :: (toL "tree/" ++ (br ++ '/' :: p)))))) db =
        .ok ⟨br, o, some p, r⟩) ∧
    (∀ (proto : Bool) (o r db : Str), o ≠ [] → '/' ∉ o → r ≠ [] → '/' ∉ r →
      (toL ".git").isSuffixOf r = false →
      parseRepoUrl ((if proto then toL "https://" else []) ++
        (toL "github.com/" ++ (o ++ '/' :: (r ++ toL ".git")))) db =
        .ok ⟨db, o, none, r⟩) ∧
    parseRepoUrl (toL "https://nongithub.com/owner/repo") (toL "main") =
      .ok ⟨toL "main", toL "owner", none, toL "repo"⟩ ∧
    (∀ db, parseRepoUrl (toL "invalid-url") db =
      .error (toL "Invalid GitHub URL format: invalid-url")) ∧
    (∀ db, parseRepoUrl (toL "https://gitlab.com/owner/repo") db =
      .error (toL "Invalid GitHub URL format: https://gitlab.com/owner/repo")) := by
  refine ⟨?_, ?_, ?_, ?_, ?_, rfl, fun db => rfl, fun db => rfl⟩
  · intro o r db ho hr hwo hwr
    have hos := all_word_no_slash hwo
    unfold parseRepoUrl shorthandSplit
    rw [splitFirst_append o r hos]
    dsimp only
    rw [if_pos (by simp [ho, hr, hwo, hwr])]
  · intro proto o r db ho hos hr hrs hg
    exact parseRepoUrl_gh (o ++ '/' :: r) db ⟨o, r, none, none⟩ proto (by simp)
      (coreParseGh_plain o r ho hos hr hrs hg)
  · intro proto o r br db ho hos hr hrs hg hbr hbrs
    exact parseRepoUrl_gh _ db ⟨o, r, some br, none⟩ proto (by simp)
      (coreParseGh_tree o r br ho hos hr hrs hg hbr hbrs)
  · intro proto o r br p db ho hos hr hrs hg hbr hbrs hp hpl
    exact parseRepoUrl_gh _ db ⟨o, r, some br, some p⟩ proto (by simp)
      (coreParseGh_tree_path o r br p ho hos hr hrs hg hbr hbrs hp hpl)
  · intro proto o r db ho hos hr hrs hg
    exact parseRepoUrl_gh _ db ⟨o, r, none, none⟩ proto (by simp)
      (coreParseGh_git o r ho hos hr hrs hg)

/-- C6 counterexample: `https://nongithub.com/owner/repo` is none of the
five accepted forms the claim lists (its host is not `github.com`), yet
`parseRepoUrl` accepts it — the regex is unanchored at the start, so the
`github.com/owner/repo` *suffix* matches. -/
theorem parseRepoUrl_counterexample :
    specFiveForm (toL "https://nongithub.com/owner/repo") = false ∧
    parseRepoUrl (toL "https://nongithub.com/owner/repo") (toL "main") =
      .ok ⟨toL "main", toL "owner", none, toL "repo"⟩ :=
  ⟨by decide, rfl⟩

/-- Witness for C6: the shorthand form, and the branch-with-`/` reading
of a `tree/` URL — the first segment after `tree/` is the whole branch. -/
theorem parseRepoUrl_url_forms_witness :
    parseRepoUrl (toL "lobehub/lobe-chat") (toL "main") =
      .ok ⟨toL "main", toL "lobehub", none, toL "lobe-chat"⟩ ∧
    parseRepoUrl
        (toL "https://github.com/lobehub/lobe-chat/tree/feature/new-ui/src/components")
        (toL "main") =
      .ok ⟨toL "feature", toL "lobehub", some (toL "new-ui/src/components"), toL "lobe-chat"⟩ := by
  constructor
  · exact parseRepoUrl_url_forms.1 (toL "lobehub") (toL "lobe-chat") (toL "main")
      (by decide) (by decide) (by decide) (by decide)
  · exact parseRepoUrl_url_forms.2.2.2.1 true (toL "lobehub") (toL "lobe-chat")
      (toL "feature") (toL "new-ui/src/components") (toL "main") (by decide) (by decide)
      (by decide) (by decide) (by decide) (by decide) (by decide) (by decide) (by decide)

end SkillSpec
